import Mathlib

/-
Verification of the core of the meta-learning-emotion-detection repository:
the stratified episodic sampler (src/data/utils/data_loader.py) and the
ProtoMAML model (src/models/protomaml_seqtransformer.py).

The embedding is value-level: tensors are lists of rationals or reals,
gradients produced by torch.autograd are oracle inputs (the autograd engine
itself is external to the repository), and in-place mutation of Python
objects becomes explicit state passing.
-/

namespace MetaEmo

/-! ## Data model of the sampler (src/data/utils/data_loader.py)

A dataset example is a dict with keys "text" and "labels"; we model the
text by an identifier and keep the label field name of the source. -/

structure Sample where
  text : ℕ
  labels : ℕ
deriving DecidableEq, Repr

/-- State of StratifiedLoader: shot count k, the list of class keys
(dict keys, hence distinct, fixed at construction), and the per-class pools.
The pool type is `Option (List Sample)` because the source line

  self.data[c] = self.data[c][2*self.k:].extend(samples)

assigns the RESULT of list.extend, which is None: after a successful call
every pool is None.  The construction-time shuffle is a permutation of each
pool and is absorbed into the initial pool contents. -/
structure StratifiedLoader where
  k : ℕ
  labels : List ℕ
  data : ℕ → Option (List Sample)

/-- One iteration of the per-class loop of StratifiedLoader.__next__:
for each class c (in key order) read the pool (indexing a None pool raises
TypeError, modelled as none), take the first 2k samples, overwrite the pool
with None (list.extend returns None), put the first k samples in the support
set and the remaining ones in the query set. -/
def stratClasses (k : ℕ) : List ℕ → (ℕ → Option (List Sample)) →
    Option (List Sample × List Sample × (ℕ → Option (List Sample)))
  | [], data => some ([], [], data)
  | c :: cs, data =>
    match data c with
    | none => none
    | some l =>
      let samples := l.take (2 * k)
      match stratClasses k cs (Function.update data c none) with
      | none => none
      | some (sup, qry, d) =>
          some (samples.take k ++ sup, samples.drop k ++ qry, d)

/-- StratifiedLoader.__next__ (tokenizer absent): returns the collected
support and query samples (the source splits them into parallel text/label
lists, which are the projections of these lists) and the updated loader. -/
def stratNext (L : StratifiedLoader) :
    Option ((List Sample × List Sample) × StratifiedLoader) :=
  match stratClasses L.k L.labels L.data with
  | none => none
  | some (sup, qry, d) => some ((sup, qry), { L with data := d })

/-- A concrete loader for the wraparound scenario: k = 1, one class (0)
holding exactly 2k = 2 distinct examples. -/
def wrapLoader : StratifiedLoader :=
  { k := 1
    labels := [0]
    data := fun c => if c = 0 then some [⟨0, 0⟩, ⟨1, 0⟩] else none }

/-- A concrete loader for the degenerate-class scenario: k = 2, one class (0)
holding a single example (fewer than 2k = 4). -/
def underLoader : StratifiedLoader :=
  { k := 2
    labels := [0]
    data := fun c => if c = 0 then some [⟨0, 0⟩] else none }

/-- A concrete loader for the stratification theorem: k = 1, two classes with
two distinct examples each. -/
def stratLoader2 : StratifiedLoader :=
  { k := 1
    labels := [0, 1]
    data := fun c =>
      if c = 0 then some [⟨0, 0⟩, ⟨1, 0⟩]
      else if c = 1 then some [⟨2, 1⟩, ⟨3, 1⟩] else none }

/-! ## AdaptiveNKShotLoader.__next__, class-count sampling

The number of classes N is computed as

  if (len(self.classes) <= 3) or (not self.subset_classes):
      self.n_classes = len(self.classes)
  else:
      self.n_classes = np.random.randint(low=2, high=len(self.classes))

np.random.randint draws uniformly from the half-open range [low, high), so
the else branch yields a value in [2, len(classes) - 1].  The random draw is
modelled by an arbitrary natural r mapped onto that range; as r varies the
value ranges uniformly over exactly the support of np.random.randint. -/

def adaptiveNClasses (subset_classes : Bool) (nClasses : ℕ) (r : ℕ) : ℕ :=
  if nClasses ≤ 3 ∨ subset_classes = false then nClasses
  else 2 + r % (nClasses - 2)

/-! ## Data model of ProtoMAMLSeqTransformer
(src/models/protomaml_seqtransformer.py)

Tensors are lists of reals; elementwise tensor arithmetic is zipWith/map
(like torch, operating on tensors of matching shape).  The embedding is
value-level: results of torch.autograd.grad are oracle inputs, and detach
is the identity on values.  Reals (not floats) model the numerics, as usual
for exact verification of floating-point-free algebraic claims. -/

noncomputable section

abbrev Vec := List ℝ

def vadd (a b : Vec) : Vec := List.zipWith (· + ·) a b

def vsub (a b : Vec) : Vec := List.zipWith (· - ·) a b

def vscale (c : ℝ) (v : Vec) : Vec := v.map fun x => c * x

def vdiv (v : Vec) (c : ℝ) : Vec := v.map fun x => x / c

def sqnorm (v : Vec) : ℝ := (v.map fun x => x * x).sum

def dot (a b : Vec) : ℝ := (List.zipWith (· * ·) a b).sum

def zeroLike (v : Vec) : Vec := v.map fun _ => 0

def matAdd (A B : List Vec) : List Vec := List.zipWith vadd A B

def matSub (A B : List Vec) : List Vec := List.zipWith vsub A B

/-- A tensor registered with the module system: its value, its gradient
buffer (None until written) and its requires_grad flag. -/
structure Param (α : Type) where
  val : α
  grad : Option α
  requires_grad : Bool

def paramVals (ps : List (Param Vec)) : List Vec := ps.map Param.val

/-- ProtoMAMLSeqTransformer._get_updateable_parameters. -/
def updateableParameters (ps : List (Param Vec)) : List (Param Vec) :=
  ps.filter fun p => p.requires_grad

/-- torch.unique returns the sorted distinct values, here built as an
insertion sort of the deduplicated list. -/
def insertSorted (x : ℕ) : List ℕ → List ℕ
  | [] => [x]
  | y :: ys => if x ≤ y then x :: y :: ys else y :: insertSorted x ys

def uniqueSorted (l : List ℕ) : List ℕ := l.dedup.foldr insertSorted []

/-- Row selection y[labels == c]: the rows of y at the positions where the
label equals c. -/
def selectRows (labels : List ℕ) (y : List Vec) (c : ℕ) : List Vec :=
  (labels.zip y).filterMap fun p => if p.1 = c then some p.2 else none

def sumVecs : List Vec → Vec
  | [] => []
  | [v] => v
  | v :: vs => vadd v (sumVecs vs)

/-- torch.mean(rows, dim=0): elementwise mean over the stacked rows. -/
def meanVec (vs : List Vec) : Vec :=
  (sumVecs vs).map fun x => x / (vs.length : ℝ)

/-- State of ProtoMAMLSeqTransformer.  enc models SeqTransformer.forward as
a pure function of the parameter values (that module is outside src/);
deep-copying the module copies the parameter list, and the copy is run by
applying enc to the copied values.  task_name, the learning rates and the
loss module are administrative fields not involved in any claim. -/
structure ProtoMAML (I : Type) where
  enc : List Vec → I → List Vec
  model_shared : List (Param Vec)
  model_task : Option (List (Param Vec))
  W_task : Option (List Vec)
  b_task : Option Vec
  n_inner : ℕ
  n_outer : ℕ
  clip_val : ℝ

variable {I : Type}

/-- ProtoMAMLSeqTransformer._generate_protoypes: the per-class means of the
shared-encoder embeddings, one per distinct label, in torch.unique order. -/
def ProtoMAML.generateProtoypes (M : ProtoMAML I) (labels : List ℕ)
    (input : I) : List Vec :=
  (uniqueSorted labels).map fun c =>
    meanVec (selectRows labels (M.enc (paramVals M.model_shared) input) c)

/-- ProtoMAMLSeqTransformer.generate_clf_weights:
W_init = 2 * prototypes, b_init = -norm(prototypes, p=2, dim=1). -/
def ProtoMAML.generateClfWeights (M : ProtoMAML I) (labels : List ℕ)
    (input : I) : List Vec × Vec :=
  ((M.generateProtoypes labels input).map (vscale 2),
   (M.generateProtoypes labels input).map fun p => -Real.sqrt (sqnorm p))

/-- F.linear(y, W, b) = y Wᵀ + b, one logit row per input row. -/
def linear (y : List Vec) (W : List Vec) (b : Vec) : List Vec :=
  y.map fun yi => List.zipWith (· + ·) (W.map fun w => dot yi w) b

/-- ProtoMAMLSeqTransformer.forward: raises ValueError when W_task or b_task
is None, otherwise classifies with the task model and task head.  (Calling a
None model_task would also raise; the W_task/b_task check runs first.) -/
def ProtoMAML.forward (M : ProtoMAML I) (input : I) : Except String (List Vec) :=
  match M.W_task, M.b_task with
  | some W, some b =>
    match M.model_task with
    | some mt => Except.ok (linear (M.enc (paramVals mt) input) W b)
    | none => Except.error "model_task is None"
  | _, _ => Except.error "No task-specific model specified yet."

/-- Module.zero_grad (torch 1.x): existing gradient buffers are zeroed,
absent ones stay absent. -/
def zeroGradParam (p : Param Vec) : Param Vec :=
  { p with grad := p.grad.map zeroLike }

def zeroGrads (ps : List (Param Vec)) : List (Param Vec) := ps.map zeroGradParam

/-- The store loop of the inner loop: for param, grad in zip(updateable
params, grads): param.grad = grad.  Walks the parameter list, assigning the
next gradient to each requires_grad parameter; python zip stops at the
shorter sequence. -/
def setGrads : List (Param Vec) → List Vec → List (Param Vec)
  | [], _ => []
  | p :: ps, gs =>
    if p.requires_grad then
      match gs with
      | [] => p :: ps
      | g :: gs2 => { p with grad := some g } :: setGrads ps gs2
    else p :: setGrads ps gs

/-- torch.nn.utils.clip_grad_norm_ applied to the updateable parameters:
total_norm is the global 2-norm of the existing gradient buffers,
clip_coef = max_norm / (total_norm + 1e-6), and if clip_coef < 1 every
gradient buffer is scaled by it in place.  Values are never touched. -/
def clipGradNorm (maxNorm : ℝ) (ps : List (Param Vec)) : List (Param Vec) :=
  let totalNorm :=
    Real.sqrt ((((updateableParameters ps).filterMap Param.grad).map sqnorm).sum)
  let clipCoef := maxNorm / (totalNorm + 1e-6)
  if clipCoef < 1 then
    ps.map fun p =>
      if p.requires_grad then { p with grad := p.grad.map (vscale clipCoef) }
      else p
  else ps

/-- The mutable task-specific state during adapt: the detached W_task and
b_task leaves and the deep-copied encoder. -/
structure TaskState where
  W : Param (List Vec)
  b : Param Vec
  mt : List (Param Vec)

/-- One iteration of the inner loop of adapt (lines 151-183): forward and
loss feed torch.autograd.grad, whose result g is an oracle input here; the
returned gradients are stored into the parameters and the encoder-copy
gradients are clipped when clip_val > 0.  The commented-out optimizer steps
mean no value is ever written. -/
def innerStep (clip_val : ℝ) (g : List Vec × Vec × List Vec)
    (s : TaskState) : TaskState :=
  { W := { s.W with grad := some g.1 }
    b := { s.b with grad := some g.2.1 }
    mt := if clip_val > 0 then clipGradNorm clip_val (setGrads s.mt g.2.2)
          else setGrads s.mt g.2.2 }

/-- ProtoMAMLSeqTransformer.adapt: discard the previous task state, deep-copy
the shared model and zero its gradients, compute W_init/b_init from
prototypes, detach them into fresh leaves, run n_inner inner steps (gradient
computation and storage only), and reconstruct the published parameters with
the straight-through formula init + (adapted - init).detach(). -/
def ProtoMAML.adapt (M : ProtoMAML I) (innerGrads : ℕ → List Vec × Vec × List Vec)
    (labels : List ℕ) (input : I) : ProtoMAML I :=
  let mt0 := zeroGrads M.model_shared
  let Wi := (M.generateClfWeights labels input).1
  let bi := (M.generateClfWeights labels input).2
  let sN := (List.range M.n_inner).foldl
      (fun s i => innerStep M.clip_val (innerGrads i) s)
      { W := ⟨Wi, none, true⟩, b := ⟨bi, none, true⟩, mt := mt0 }
  { M with
    model_task := some sN.mt
    W_task := some (matAdd Wi (matSub sN.W.val Wi))
    b_task := some (vadd bi (vsub sN.b.val bi)) }

/-- The accumulation written into one shared parameter by backward
(lines 204-208): set the buffer to (g_shared + g_task) / n_outer when empty,
otherwise add that quantity to it. -/
def accumOne (n_outer : ℕ) (p : Param Vec) (gt gs : Vec) : Param Vec :=
  { p with grad := some (match p.grad with
      | none => vdiv (vadd gs gt) (n_outer : ℝ)
      | some g0 => vadd g0 (vdiv (vadd gs gt) (n_outer : ℝ))) }

/-- The accumulation loop of backward: zip the updateable shared parameters
with the two gradient lists (python zip stops at the shorter sequence);
parameters with requires_grad = False are not touched. -/
def accumGrads (n_outer : ℕ) :
    List (Param Vec) → List Vec → List Vec → List (Param Vec)
  | [], _, _ => []
  | p :: ps, gts, gss =>
    if p.requires_grad then
      match gts, gss with
      | gt :: gts2, gs :: gss2 =>
          accumOne n_outer p gt gs :: accumGrads n_outer ps gts2 gss2
      | _, _ => p :: ps
    else p :: accumGrads n_outer ps gts gss

/-- ProtoMAMLSeqTransformer.backward: task_grads and shared_grads are the
oracle results of the two torch.autograd.grad calls on the query loss;
accumulate them into the shared gradient buffers and clip the shared
gradients when clip_val > 0. -/
def ProtoMAML.backward (M : ProtoMAML I) (task_grads shared_grads : List Vec) :
    ProtoMAML I :=
  let ps := accumGrads M.n_outer M.model_shared task_grads shared_grads
  { M with model_shared := if M.clip_val > 0 then clipGradNorm M.clip_val ps else ps }

/-- A sequence of backward calls within one episode (the outer loop of the
training script runs n_outer of them between zero-grad calls). -/
def ProtoMAML.backwardN (M : ProtoMAML I) (calls : List (List Vec × List Vec)) :
    ProtoMAML I :=
  calls.foldl (fun m c => m.backward c.1 c.2) M

/-- Proof helper: accumGrads restricted to the updateable sublist. -/
def accumAll (n : ℕ) : List (Param Vec) → List Vec → List Vec → List (Param Vec)
  | p :: ps, gt :: gts, gs :: gss => accumOne n p gt gs :: accumAll n ps gts gss
  | ps, _, _ => ps

/-- Scalar gradient extractor: coordinate j of entry i of a gradient list
(0 when out of range; the theorems supply in-range hypotheses). -/
def gAt (v : List Vec) (i j : ℕ) : ℝ := ((v[i]?.getD [])[j]?.getD 0)

/-- Concrete model state for witnesses: one shared parameter, no task state,
encoder returning a fixed embedding row. -/
def Mw : ProtoMAML Unit :=
  { enc := fun _ _ => [[3, 4]]
    model_shared := [⟨[0], none, true⟩]
    model_task := none
    W_task := none
    b_task := none
    n_inner := 0
    n_outer := 2
    clip_val := 0 }

end

/-! ## Theorems about the sampler -/

/-- Per-class loop invariant of StratifiedLoader.__next__: on distinct class
keys whose pools are lists of at least 2k distinct examples carrying their
own class label, the loop succeeds, the support and query sets are disjoint,
their members carry labels of the visited classes, and each visited class
contributes exactly k support and k query examples. -/
theorem stratClasses_spec (k : ℕ) (cs : List ℕ) :
    ∀ (data : ℕ → Option (List Sample)),
      cs.Nodup →
      (∀ c ∈ cs, ∃ l, data c = some l ∧ 2 * k ≤ l.length ∧ l.Nodup ∧
          ∀ s ∈ l, s.labels = c) →
      ∃ sup qry d, stratClasses k cs data = some (sup, qry, d) ∧
        List.Disjoint sup qry ∧
        (∀ s ∈ sup, s.labels ∈ cs) ∧
        (∀ s ∈ qry, s.labels ∈ cs) ∧
        ∀ c ∈ cs, (sup.map Sample.labels).count c = k ∧
                  (qry.map Sample.labels).count c = k := by
  induction cs with
  | nil =>
    intro data _ _
    exact ⟨[], [], data, rfl, by simp [List.Disjoint], by simp, by simp, by simp⟩
  | cons c cs ih =>
    intro data hnd hpool
    obtain ⟨hcns, hnd2⟩ := List.nodup_cons.1 hnd
    obtain ⟨l, hdl, hlen, hlnd, hpure⟩ := hpool c (List.mem_cons_self c cs)
    have hpool2 : ∀ c2 ∈ cs, ∃ l2, Function.update data c none c2 = some l2 ∧
        2 * k ≤ l2.length ∧ l2.Nodup ∧ ∀ s ∈ l2, s.labels = c2 := by
      intro c2 hc2
      have hne : c2 ≠ c := fun h => hcns (h ▸ hc2)
      rw [Function.update_noteq hne]
      exact hpool c2 (List.mem_cons_of_mem _ hc2)
    obtain ⟨sup, qry, d, heq, hdisj, hsupm, hqrym, hcount⟩ :=
      ih (Function.update data c none) hnd2 hpool2
    have hslen : (l.take (2 * k)).length = 2 * k := by
      rw [List.length_take]; omega
    have hsnd : (l.take (2 * k)).Nodup := (List.take_sublist _ _).nodup hlnd
    have hspure : ∀ s ∈ l.take (2 * k), s.labels = c :=
      fun s hs => hpure s (List.mem_of_mem_take hs)
    have hAc : ∀ s ∈ (l.take (2 * k)).take k, s.labels = c :=
      fun s hs => hspure s (List.mem_of_mem_take hs)
    have hBc : ∀ s ∈ (l.take (2 * k)).drop k, s.labels = c :=
      fun s hs => hspure s (List.mem_of_mem_drop hs)
    have hAlen : ((l.take (2 * k)).take k).length = k := by
      rw [List.length_take, hslen]; omega
    have hBlen : ((l.take (2 * k)).drop k).length = k := by
      rw [List.length_drop, hslen]; omega
    have hABnd : ((l.take (2 * k)).take k ++ (l.take (2 * k)).drop k).Nodup := by
      rw [List.take_append_drop]; exact hsnd
    have hABdisj := (List.nodup_append.1 hABnd).2.2
    refine ⟨(l.take (2 * k)).take k ++ sup, (l.take (2 * k)).drop k ++ qry, d,
      ?_, ?_, ?_, ?_, ?_⟩
    · simp only [stratClasses, hdl, heq]
    · rw [List.disjoint_append_left]
      constructor
      · rw [List.disjoint_append_right]
        refine ⟨hABdisj, ?_⟩
        intro a haA haQ
        have := hqrym a haQ
        rw [hAc a haA] at this
        exact hcns this
      · rw [List.disjoint_append_right]
        constructor
        · intro a haS haB
          have := hsupm a haS
          rw [hBc a haB] at this
          exact hcns this
        · exact hdisj
    · intro s hs
      rcases List.mem_append.1 hs with h | h
      · exact List.mem_cons.2 (Or.inl (hAc s h))
      · exact List.mem_cons.2 (Or.inr (hsupm s h))
    · intro s hs
      rcases List.mem_append.1 hs with h | h
      · exact List.mem_cons.2 (Or.inl (hBc s h))
      · exact List.mem_cons.2 (Or.inr (hqrym s h))
    · intro c2 hc2
      rcases List.mem_cons.1 hc2 with rfl | hc2
      · have h1 : (((l.take (2 * k)).take k).map Sample.labels).count c2 =
            (((l.take (2 * k)).take k).map Sample.labels).length := by
          refine List.count_eq_length.2 ?_
          intro b hb
          obtain ⟨s, hs, rfl⟩ := List.mem_map.1 hb
          exact (hAc s hs).symm
        have h2 : ((sup.map Sample.labels).count c2) = 0 := by
          refine List.count_eq_zero.2 ?_
          intro hmem
          obtain ⟨s, hs, hl⟩ := List.mem_map.1 hmem
          have := hsupm s hs
          rw [hl] at this
          exact hcns this
        have h3 : (((l.take (2 * k)).drop k).map Sample.labels).count c2 =
            (((l.take (2 * k)).drop k).map Sample.labels).length := by
          refine List.count_eq_length.2 ?_
          intro b hb
          obtain ⟨s, hs, rfl⟩ := List.mem_map.1 hb
          exact (hBc s hs).symm
        have h4 : ((qry.map Sample.labels).count c2) = 0 := by
          refine List.count_eq_zero.2 ?_
          intro hmem
          obtain ⟨s, hs, hl⟩ := List.mem_map.1 hmem
          have := hqrym s hs
          rw [hl] at this
          exact hcns this
        constructor
        · rw [List.map_append, List.count_append, h1, h2, List.length_map, hAlen]; omega
        · rw [List.map_append, List.count_append, h3, h4, List.length_map, hBlen]; omega
      · have hne : c2 ≠ c := fun h => hcns (h ▸ hc2)
        have h1 : (((l.take (2 * k)).take k).map Sample.labels).count c2 = 0 := by
          refine List.count_eq_zero.2 ?_
          intro hmem
          obtain ⟨s, hs, hl⟩ := List.mem_map.1 hmem
          exact hne (hl.symm.trans (hAc s hs))
        have h3 : (((l.take (2 * k)).drop k).map Sample.labels).count c2 = 0 := by
          refine List.count_eq_zero.2 ?_
          intro hmem
          obtain ⟨s, hs, hl⟩ := List.mem_map.1 hmem
          exact hne (hl.symm.trans (hBc s hs))
        constructor
        · rw [List.map_append, List.count_append, h1, (hcount c2 hc2).1]; omega
        · rw [List.map_append, List.count_append, h3, (hcount c2 hc2).2]; omega

/-- C3: on a dataset in which every class pool holds at least 2k distinct
examples of its own class, StratifiedLoader.__next__ succeeds, the support
and query sets share no example, and every class contributes exactly k
support examples and exactly k query examples. -/
theorem stratNext_support_query_spec (L : StratifiedLoader)
    (hnd : L.labels.Nodup)
    (hpool : ∀ c ∈ L.labels, ∃ l, L.data c = some l ∧ 2 * L.k ≤ l.length ∧
        l.Nodup ∧ ∀ s ∈ l, s.labels = c) :
    ∃ sup qry L2, stratNext L = some ((sup, qry), L2) ∧
      List.Disjoint sup qry ∧
      ∀ c ∈ L.labels, (sup.map Sample.labels).count c = L.k ∧
                      (qry.map Sample.labels).count c = L.k := by
  obtain ⟨sup, qry, d, heq, hdisj, _, _, hcount⟩ :=
    stratClasses_spec L.k L.labels L.data hnd hpool
  exact ⟨sup, qry, _, by rw [stratNext, heq], hdisj, hcount⟩

/-- C10 counterexample: with subset_classes enabled and 4 classes, the claim
says N is sampled from 2 up to AND INCLUDING the total number of classes.
np.random.randint excludes the upper bound, so the value 4 is unreachable:
no random draw makes the sampled class count equal the total. -/
theorem adaptiveNClasses_total_unreachable :
    ¬ ∃ r, adaptiveNClasses true 4 r = 4 := by
  rintro ⟨r, h⟩
  simp only [adaptiveNClasses] at h
  norm_num at h
  omega

/-- C10 amended: with subset_classes enabled, a dataset of at most 3 classes
uses the full class set, and a dataset of more than 3 classes samples N
uniformly from 2 up to and including total - 1 (numpy randint excludes the
upper bound); every value in that range is attained by some draw. -/
theorem adaptiveNClasses_range (n r : ℕ) :
    (n ≤ 3 → adaptiveNClasses true n r = n) ∧
    (3 < n → 2 ≤ adaptiveNClasses true n r ∧ adaptiveNClasses true n r < n ∧
      ∀ m, 2 ≤ m → m < n → ∃ s, adaptiveNClasses true n s = m) := by
  constructor
  · intro h
    simp [adaptiveNClasses, h]
  · intro h
    have hcond : ¬ (n ≤ 3 ∨ (true : Bool) = false) := by
      rintro (h2 | h2)
      · omega
      · exact absurd h2 (by simp)
    refine ⟨?_, ?_, ?_⟩
    · simp only [adaptiveNClasses, if_neg hcond]
      omega
    · simp only [adaptiveNClasses, if_neg hcond]
      have := Nat.mod_lt r (show 0 < n - 2 by omega)
      omega
    · intro m hm2 hmn
      refine ⟨m - 2, ?_⟩
      simp only [adaptiveNClasses, if_neg hcond]
      have : (m - 2) % (n - 2) = m - 2 := Nat.mod_eq_of_lt (by omega)
      omega

/-- Witness for C10 amended at concrete inputs: 3 classes keep the full set,
5 classes yield a value within the bounds. -/
theorem adaptiveNClasses_range_witness :
    adaptiveNClasses true 3 0 = 3 ∧
    (2 ≤ adaptiveNClasses true 5 0 ∧ adaptiveNClasses true 5 0 < 5) := by
  refine ⟨(adaptiveNClasses_range 3 0).1 (by norm_num), ?_⟩
  have h := (adaptiveNClasses_range 5 0).2 (by norm_num)
  exact ⟨h.1, h.2.1⟩

/-- Witness for C3 at a concrete loader (k = 1, classes 0 and 1 with two
distinct examples each). -/
theorem stratNext_support_query_spec_witness :
    ∃ sup qry L2, stratNext stratLoader2 = some ((sup, qry), L2) ∧
      List.Disjoint sup qry ∧
      ∀ c ∈ stratLoader2.labels,
        (sup.map Sample.labels).count c = stratLoader2.k ∧
        (qry.map Sample.labels).count c = stratLoader2.k := by
  refine stratNext_support_query_spec stratLoader2 (by decide) ?_
  intro c hc
  fin_cases hc
  · exact ⟨[⟨0, 0⟩, ⟨1, 0⟩], rfl, by decide, by decide, by decide⟩
  · exact ⟨[⟨2, 1⟩, ⟨3, 1⟩], rfl, by decide, by decide, by decide⟩

/-- C4: the claim (and the spec) say that with a class of exactly 2k examples
a second consecutive call to StratifiedLoader.__next__ recycles the consumed
examples and again returns k support and k query items.  In the code,
list.extend returns None, so the assignment on line 59 replaces every pool by
None and the second call fails (TypeError on None subscripting, modelled by
the none result) instead of returning k + k items. -/
theorem stratNext_second_call_fails :
    ∃ r L2, stratNext wrapLoader = some (r, L2) ∧ stratNext L2 = none := by
  exact ⟨_, _, rfl, rfl⟩

/-- C5: the claim (the spec, and the docstring of StratifiedLoader) say that a
class with fewer than 2k total examples surfaces a StopIteration-equivalent
error.  The code raises nothing: on a class with a single example and k = 2
it silently returns a support set with 1 item and an empty query set. -/
theorem stratNext_undersized_silent :
    ∃ s q L2, stratNext underLoader = some ((s, q), L2) ∧
      s.length = 1 ∧ q.length = 0 := by
  exact ⟨_, _, _, rfl, rfl, rfl⟩

/-! ## Theorems about the ProtoMAML model -/

theorem paramVals_setGrads (ps : List (Param Vec)) (gs : List Vec) :
    paramVals (setGrads ps gs) = paramVals ps := by
  simp only [paramVals]
  induction ps generalizing gs with
  | nil => simp [setGrads]
  | cons p ps ih =>
    by_cases h : p.requires_grad
    · cases gs with
      | nil => simp [setGrads, h]
      | cons g gs2 =>
        simp only [setGrads, h, if_true, List.map_cons]
        rw [ih gs2]
    · simp only [setGrads, h, if_false, Bool.false_eq_true, List.map_cons]
      rw [ih gs]

theorem paramVals_clipGradNorm (m : ℝ) (ps : List (Param Vec)) :
    paramVals (clipGradNorm m ps) = paramVals ps := by
  simp only [clipGradNorm, paramVals]
  split
  · rw [List.map_map]
    apply List.map_congr_left
    intro p _
    by_cases h : p.requires_grad <;> simp [h]
  · rfl

theorem paramVals_zeroGrads (ps : List (Param Vec)) :
    paramVals (zeroGrads ps) = paramVals ps := by
  unfold zeroGrads paramVals
  rw [List.map_map]
  apply List.map_congr_left
  intro p _
  simp [zeroGradParam]

theorem innerStep_vals (cv : ℝ) (g : List Vec × Vec × List Vec) (s : TaskState) :
    (innerStep cv g s).W.val = s.W.val ∧ (innerStep cv g s).b.val = s.b.val ∧
    paramVals (innerStep cv g s).mt = paramVals s.mt := by
  refine ⟨rfl, rfl, ?_⟩
  unfold innerStep
  dsimp only
  split
  · rw [paramVals_clipGradNorm, paramVals_setGrads]
  · rw [paramVals_setGrads]

theorem innerLoop_vals (cv : ℝ) (gr : ℕ → List Vec × Vec × List Vec)
    (l : List ℕ) (s : TaskState) :
    ((l.foldl (fun s i => innerStep cv (gr i) s) s).W.val = s.W.val) ∧
    ((l.foldl (fun s i => innerStep cv (gr i) s) s).b.val = s.b.val) ∧
    paramVals (l.foldl (fun s i => innerStep cv (gr i) s) s).mt =
      paramVals s.mt := by
  induction l generalizing s with
  | nil => exact ⟨rfl, rfl, rfl⟩
  | cons i l ih =>
    simp only [List.foldl_cons]
    obtain ⟨h1, h2, h3⟩ := ih (innerStep cv (gr i) s)
    obtain ⟨g1, g2, g3⟩ := innerStep_vals cv (gr i) s
    exact ⟨h1.trans g1, h2.trans g2, h3.trans g3⟩

theorem vadd_vsub_self (v : Vec) : vadd v (vsub v v) = v := by
  induction v with
  | nil => rfl
  | cons a v ih =>
    simp only [vadd, vsub, List.zipWith_cons_cons] at ih ⊢
    exact congrArg₂ List.cons (by ring) ih

theorem matAdd_matSub_self (A : List Vec) : matAdd A (matSub A A) = A := by
  induction A with
  | nil => rfl
  | cons r A ih =>
    simp only [matAdd, matSub, List.zipWith_cons_cons] at ih ⊢
    exact congrArg₂ List.cons (vadd_vsub_self r) ih

/-- Shared characterization of adapt: the published W_task and b_task equal
the prototype-derived initial values, and the task-model parameter values
equal the shared-model parameter values at adapt time. -/
theorem adapt_spec (M : ProtoMAML I) (gr : ℕ → List Vec × Vec × List Vec)
    (labels : List ℕ) (input : I) :
    (M.adapt gr labels input).W_task =
      some (M.generateClfWeights labels input).1 ∧
    (M.adapt gr labels input).b_task =
      some (M.generateClfWeights labels input).2 ∧
    ((M.adapt gr labels input).model_task).map paramVals =
      some (paramVals M.model_shared) := by
  unfold ProtoMAML.adapt
  obtain ⟨h1, h2, h3⟩ := innerLoop_vals M.clip_val (fun i => gr i)
    (List.range M.n_inner)
    { W := ⟨(M.generateClfWeights labels input).1, none, true⟩,
      b := ⟨(M.generateClfWeights labels input).2, none, true⟩,
      mt := zeroGrads M.model_shared }
  refine ⟨?_, ?_, ?_⟩
  · dsimp only
    rw [h1, matAdd_matSub_self]
  · dsimp only
    rw [h2, vadd_vsub_self]
  · dsimp only [Option.map_some']
    rw [h3, paramVals_zeroGrads]

/-- C2: the inner loop of adapt stores gradients but never applies a
parameter update, so for every n_inner the straight-through reconstruction
returns exactly the prototype initialization W_init/b_init, and the task
encoder copy keeps the shared encoder values of adapt time. -/
theorem adapt_pure_prototype_classification (M : ProtoMAML I)
    (gr : ℕ → List Vec × Vec × List Vec) (labels : List ℕ) (input : I) :
    (M.adapt gr labels input).W_task =
      some (M.generateClfWeights labels input).1 ∧
    (M.adapt gr labels input).b_task =
      some (M.generateClfWeights labels input).2 ∧
    ((M.adapt gr labels input).model_task).map paramVals =
      some (paramVals M.model_shared) :=
  adapt_spec M gr labels input

/-- C9: adapt only reads the shared model (forward for prototypes, deep copy
for the task model); the shared parameters, values and gradient buffers
alike, are unchanged by adapt. -/
theorem adapt_preserves_shared (M : ProtoMAML I)
    (gr : ℕ → List Vec × Vec × List Vec) (labels : List ℕ) (input : I) :
    (M.adapt gr labels input).model_shared = M.model_shared := rfl

theorem length_insertSorted (x : ℕ) (l : List ℕ) :
    (insertSorted x l).length = l.length + 1 := by
  induction l with
  | nil => rfl
  | cons y ys ih => by_cases h : x ≤ y <;> simp [insertSorted, h, ih]

theorem mem_insertSorted (a x : ℕ) (l : List ℕ) :
    a ∈ insertSorted x l ↔ a = x ∨ a ∈ l := by
  induction l with
  | nil => simp [insertSorted]
  | cons y ys ih => by_cases h : x ≤ y <;> simp [insertSorted, h, ih] <;> tauto

theorem mem_foldr_insertSorted (a : ℕ) (d : List ℕ) :
    a ∈ d.foldr insertSorted [] ↔ a ∈ d := by
  induction d with
  | nil => simp
  | cons b d ih => simp [mem_insertSorted, ih]

theorem nodup_insertSorted (x : ℕ) (l : List ℕ) :
    x ∉ l → l.Nodup → (insertSorted x l).Nodup := by
  induction l with
  | nil => intro _ _; simp [insertSorted]
  | cons y ys ih =>
    intro hx hnd
    obtain ⟨hy, hys⟩ := List.nodup_cons.1 hnd
    by_cases h : x ≤ y
    · simp only [insertSorted, if_pos h]
      exact List.nodup_cons.2 ⟨hx, hnd⟩
    · simp only [insertSorted, if_neg h]
      refine List.nodup_cons.2 ⟨?_, ih (fun hm => hx (List.mem_cons_of_mem _ hm)) hys⟩
      intro hy2
      rcases (mem_insertSorted y x ys).1 hy2 with h2 | h2
      · exact hx (h2 ▸ List.mem_cons_self x ys)
      · exact hy h2

theorem length_uniqueSorted (l : List ℕ) :
    (uniqueSorted l).length = l.dedup.length := by
  unfold uniqueSorted
  induction l.dedup with
  | nil => rfl
  | cons a d ih => simp [length_insertSorted, ih]

theorem mem_uniqueSorted (a : ℕ) (l : List ℕ) : a ∈ uniqueSorted l ↔ a ∈ l := by
  unfold uniqueSorted
  rw [mem_foldr_insertSorted]
  exact List.mem_dedup

theorem nodup_uniqueSorted (l : List ℕ) : (uniqueSorted l).Nodup := by
  unfold uniqueSorted
  have key : ∀ d : List ℕ, d.Nodup → (d.foldr insertSorted []).Nodup := by
    intro d
    induction d with
    | nil => intro _; simp
    | cons a d ih =>
      intro h
      obtain ⟨ha, hd⟩ := List.nodup_cons.1 h
      exact nodup_insertSorted _ _
        (fun hm => ha ((mem_foldr_insertSorted _ _).1 hm)) (ih hd)
  exact key _ l.nodup_dedup

/-- C7: after every completed adapt call, W_task has one row and b_task one
entry per distinct label in the support labels of the episode, whatever the
class count of the episode is. -/
theorem adapt_class_count (M : ProtoMAML I)
    (gr : ℕ → List Vec × Vec × List Vec) (labels : List ℕ) (input : I) :
    ((M.adapt gr labels input).W_task).map List.length =
      some labels.dedup.length ∧
    ((M.adapt gr labels input).b_task).map List.length =
      some labels.dedup.length := by
  obtain ⟨h1, h2, _⟩ := adapt_spec M gr labels input
  rw [h1, h2]
  constructor
  · simp [ProtoMAML.generateClfWeights, ProtoMAML.generateProtoypes,
      length_uniqueSorted]
  · simp [ProtoMAML.generateClfWeights, ProtoMAML.generateProtoypes,
      length_uniqueSorted]

/-- C6: generate_clf_weights returns one weight row and one bias entry per
distinct label present; row i is 2 times the mean shared-encoder embedding
of the examples labelled with the i-th distinct label, and bias entry i is
minus the Euclidean norm of that mean prototype.  Everything is a function
of the encoder state and the batch alone (no learned parameters occur in
the definition). -/
theorem generateClfWeights_spec (M : ProtoMAML I) (labels : List ℕ)
    (input : I) :
    (M.generateClfWeights labels input).1.length = labels.dedup.length ∧
    (M.generateClfWeights labels input).2.length = labels.dedup.length ∧
    (uniqueSorted labels).Nodup ∧
    (∀ c, c ∈ uniqueSorted labels ↔ c ∈ labels) ∧
    ∀ (i : ℕ) (c : ℕ), (uniqueSorted labels)[i]? = some c →
      (M.generateClfWeights labels input).1[i]? =
        some (vscale 2 (meanVec (selectRows labels
          (M.enc (paramVals M.model_shared) input) c))) ∧
      (M.generateClfWeights labels input).2[i]? =
        some (-Real.sqrt (sqnorm (meanVec (selectRows labels
          (M.enc (paramVals M.model_shared) input) c)))) := by
  refine ⟨?_, ?_, nodup_uniqueSorted labels,
    fun c => mem_uniqueSorted c labels, ?_⟩
  · simp [ProtoMAML.generateClfWeights, ProtoMAML.generateProtoypes,
      length_uniqueSorted]
  · simp [ProtoMAML.generateClfWeights, ProtoMAML.generateProtoypes,
      length_uniqueSorted]
  · intro i c hic
    constructor
    · simp [ProtoMAML.generateClfWeights, ProtoMAML.generateProtoypes, hic]
    · simp [ProtoMAML.generateClfWeights, ProtoMAML.generateProtoypes, hic]

/-- Witness for C6 on a concrete state: one support example with embedding
[3, 4] and label 5 gives prototype [3, 4], weight row [6, 8] and bias -5. -/
theorem generateClfWeights_spec_witness :
    (Mw.generateClfWeights [5] ()).1[0]? = some ([6, 8] : Vec) ∧
    (Mw.generateClfWeights [5] ()).2[0]? = some ((-5 : ℝ)) := by
  have h := (generateClfWeights_spec Mw [5] ()).2.2.2.2 0 5 rfl
  have hmean : meanVec (selectRows [5]
      (Mw.enc (paramVals Mw.model_shared) ()) 5) = [3, 4] := by
    show meanVec (selectRows [5] [[3, 4]] 5) = [3, 4]
    simp [selectRows, meanVec, sumVecs]
  constructor
  · rw [h.1, hmean]
    have : vscale 2 [3, 4] = [6, 8] := by
      simp [vscale]
      norm_num
    rw [this]
  · rw [h.2, hmean]
    have hsq : sqnorm [3, 4] = 25 := by
      simp [sqnorm]
      norm_num
    rw [hsq]
    have : Real.sqrt 25 = 5 := by
      rw [show (25 : ℝ) = 5 ^ 2 by norm_num, Real.sqrt_sq (by norm_num : (0:ℝ) ≤ 5)]
    rw [this]

/-- C8: forward raises an explicit ValueError when no task parameters exist,
before touching anything else: calling it prior to any completed adapt (both
W_task and b_task are None in the initial state) reports the error
immediately and never classifies. -/
theorem forward_before_adapt (M : ProtoMAML I) (input : I)
    (h : M.W_task = none ∨ M.b_task = none) :
    M.forward input = Except.error "No task-specific model specified yet." := by
  unfold ProtoMAML.forward
  rcases h with h | h
  · rw [h]
  · rw [h]
    cases M.W_task <;> rfl

/-- Witness for C8: the freshly constructed model state (W_task = b_task =
None) rejects forward with the ValueError message. -/
theorem forward_before_adapt_witness :
    Mw.forward () = Except.error "No task-specific model specified yet." :=
  forward_before_adapt Mw () (Or.inl rfl)

theorem accumOne_requires_grad (n : ℕ) (p : Param Vec) (gt gs : Vec) :
    (accumOne n p gt gs).requires_grad = p.requires_grad := rfl

theorem updateable_accumGrads (n : ℕ) (ps : List (Param Vec)) :
    ∀ (tg sg : List Vec),
      updateableParameters (accumGrads n ps tg sg) =
        accumAll n (updateableParameters ps) tg sg := by
  induction ps with
  | nil => intro tg sg; rfl
  | cons p ps ih =>
    intro tg sg
    by_cases h : p.requires_grad
    · cases tg with
      | nil =>
        simp [accumGrads, h, updateableParameters, List.filter_cons, accumAll]
      | cons gt gts =>
        cases sg with
        | nil =>
          simp [accumGrads, h, updateableParameters, List.filter_cons, accumAll]
        | cons gs gss =>
          have ihe := ih gts gss
          simp only [updateableParameters] at ihe ⊢
          simp [accumGrads, h, List.filter_cons, accumOne_requires_grad,
            accumAll, ihe]
    · have ihe := ih tg sg
      simp only [updateableParameters] at ihe ⊢
      simp [accumGrads, h, List.filter_cons, accumAll, ihe]

theorem accumAll_getElem (n : ℕ) (i : ℕ) :
    ∀ (ps : List (Param Vec)) (tg sg : List Vec) (p : Param Vec) (gt gs : Vec),
      ps[i]? = some p → tg[i]? = some gt → sg[i]? = some gs →
      (accumAll n ps tg sg)[i]? = some (accumOne n p gt gs) := by
  induction i with
  | zero =>
    intro ps tg sg p gt gs hp ht hs
    cases ps with
    | nil => simp at hp
    | cons p0 ps =>
      cases tg with
      | nil => simp at ht
      | cons gt0 gts =>
        cases sg with
        | nil => simp at hs
        | cons gs0 gss =>
          simp only [List.getElem?_cons_zero, Option.some.injEq] at hp ht hs
          subst hp ht hs
          simp [accumAll]
  | succ i ih =>
    intro ps tg sg p gt gs hp ht hs
    cases ps with
    | nil => simp at hp
    | cons p0 ps =>
      cases tg with
      | nil => simp at ht
      | cons gt0 gts =>
        cases sg with
        | nil => simp at hs
        | cons gs0 gss =>
          simp only [List.getElem?_cons_succ] at hp ht hs
          simp only [accumAll, List.getElem?_cons_succ]
          exact ih ps gts gss p gt gs hp ht hs

theorem vadd_getElem (a b : Vec) (j : ℕ) (x y : ℝ)
    (ha : a[j]? = some x) (hb : b[j]? = some y) :
    (vadd a b)[j]? = some (x + y) := by
  unfold vadd
  rw [List.getElem?_zipWith, ha, hb]

theorem vdiv_getElem (v : Vec) (c : ℝ) (j : ℕ) (x : ℝ)
    (hv : v[j]? = some x) : (vdiv v c)[j]? = some (x / c) := by
  unfold vdiv
  rw [List.getElem?_map, hv, Option.map_some']

theorem gAt_eq (v : List Vec) (i j : ℕ) (w : Vec) (x : ℝ)
    (h1 : v[i]? = some w) (h2 : w[j]? = some x) : gAt v i j = x := by
  simp [gAt, h1, h2]

/-- One backward call, seen at updateable position i: the parameter there is
replaced by its accumOne update.  Clipping is off (clip_val ≤ 0 skips the
clip branch, matching the claim's bracketing of clipping). -/
theorem backward_step_at (M : ProtoMAML I) (tg sg : List Vec) (i : ℕ)
    (p : Param Vec) (gt gs : Vec)
    (hclip : M.clip_val ≤ 0)
    (hp : (updateableParameters M.model_shared)[i]? = some p)
    (ht : tg[i]? = some gt) (hs : sg[i]? = some gs) :
    (updateableParameters (M.backward tg sg).model_shared)[i]? =
      some (accumOne M.n_outer p gt gs) := by
  unfold ProtoMAML.backward
  dsimp only
  rw [if_neg (not_lt.2 hclip)]
  rw [updateable_accumGrads]
  exact accumAll_getElem M.n_outer i _ tg sg p gt gs hp ht hs

theorem backward_clip_val (M : ProtoMAML I) (tg sg : List Vec) :
    (M.backward tg sg).clip_val = M.clip_val := rfl

theorem backward_n_outer (M : ProtoMAML I) (tg sg : List Vec) :
    (M.backward tg sg).n_outer = M.n_outer := rfl

/-- Invariant of the outer-loop iteration: once updateable parameter i holds
a gradient buffer whose coordinate j is S, a further sequence of backward
calls leaves it holding S plus the scaled pair-sums of those calls. -/
theorem backwardN_inv (i j : ℕ) :
    ∀ (calls : List (List Vec × List Vec)) (M : ProtoMAML I)
      (p : Param Vec) (g : Vec) (S : ℝ),
      M.clip_val ≤ 0 →
      (updateableParameters M.model_shared)[i]? = some p →
      p.grad = some g →
      g[j]? = some S →
      (∀ c ∈ calls, (∃ gt, c.1[i]? = some gt ∧ ∃ x, gt[j]? = some x) ∧
                    (∃ gs, c.2[i]? = some gs ∧ ∃ y, gs[j]? = some y)) →
      ∃ g2, (updateableParameters (M.backwardN calls).model_shared)[i]? =
              some { p with grad := some g2 } ∧
            g2[j]? = some (S +
              (calls.map fun c => gAt c.2 i j + gAt c.1 i j).sum /
                (M.n_outer : ℝ)) := by
  intro calls
  induction calls with
  | nil =>
    intro M p g S hclip hp hgrad hgj _
    refine ⟨g, ?_, ?_⟩
    · have : { p with grad := some g } = p := by
        cases p
        simp_all
      rw [this]
      exact hp
    · rw [hgj]
      norm_num
  | cons c cs ih =>
    intro M p g S hclip hp hgrad hgj hcalls
    obtain ⟨⟨gt, hgt, x, hgtx⟩, ⟨gs, hgs, y, hgsy⟩⟩ :=
      hcalls c (List.mem_cons_self c cs)
    have hstep := backward_step_at M c.1 c.2 i p gt gs hclip hp hgt hgs
    have haccum : accumOne M.n_outer p gt gs =
        { p with grad := some (vadd g (vdiv (vadd gs gt) (M.n_outer : ℝ))) } := by
      unfold accumOne
      rw [hgrad]
    rw [haccum] at hstep
    have hg2j : (vadd g (vdiv (vadd gs gt) (M.n_outer : ℝ)))[j]? =
        some (S + (y + x) / (M.n_outer : ℝ)) :=
      vadd_getElem _ _ j _ _ hgj
        (vdiv_getElem _ _ j _ (vadd_getElem _ _ j _ _ hgsy hgtx))
    obtain ⟨g2, h1, h2⟩ := ih (M.backward c.1 c.2)
      { p with grad := some (vadd g (vdiv (vadd gs gt) (M.n_outer : ℝ))) }
      (vadd g (vdiv (vadd gs gt) (M.n_outer : ℝ)))
      (S + (y + x) / (M.n_outer : ℝ))
      (by rw [backward_clip_val]; exact hclip)
      hstep rfl hg2j
      (fun c2 hc2 => hcalls c2 (List.mem_cons_of_mem c hc2))
    refine ⟨g2, ?_, ?_⟩
    · exact h1
    · rw [h2]
      rw [backward_n_outer]
      rw [List.map_cons, List.sum_cons]
      rw [gAt_eq c.2 i j gs y hgs hgsy, gAt_eq c.1 i j gt x hgt hgtx]
      congr 1
      rw [add_div]
      ring

/-- C1: each backward call sets an empty shared gradient buffer to
(g_shared + g_task) / n_outer and increments a non-empty one by the same
quantity, so after the outer-loop calls since the last zero-grad each buffer
holds the sum of the scaled pair-sums (clipping disabled, matching the
claim's "up to the clipping" bracketing: with clip_val ≤ 0 the code skips
the clip branch). -/
theorem backward_accumulates (M : ProtoMAML I) (tg sg : List Vec)
    (calls : List (List Vec × List Vec)) (i j : ℕ) (p : Param Vec)
    (hclip : M.clip_val ≤ 0)
    (hp : (updateableParameters M.model_shared)[i]? = some p) :
    (∀ gt gs, tg[i]? = some gt → sg[i]? = some gs →
      (p.grad = none →
        (updateableParameters (M.backward tg sg).model_shared)[i]? =
          some { p with grad := some (vdiv (vadd gs gt) (M.n_outer : ℝ)) }) ∧
      (∀ g0, p.grad = some g0 →
        (updateableParameters (M.backward tg sg).model_shared)[i]? =
          some { p with grad := some (vadd g0 (vdiv (vadd gs gt) (M.n_outer : ℝ))) })) ∧
    (p.grad = none →
      (∀ c ∈ calls, (∃ gt, c.1[i]? = some gt ∧ ∃ x, gt[j]? = some x) ∧
                    (∃ gs, c.2[i]? = some gs ∧ ∃ y, gs[j]? = some y)) →
      ∀ c0 cs, calls = c0 :: cs →
      ∃ g2, (updateableParameters (M.backwardN calls).model_shared)[i]? =
              some { p with grad := some g2 } ∧
            g2[j]? = some
              ((calls.map fun c => gAt c.2 i j + gAt c.1 i j).sum /
                (M.n_outer : ℝ))) := by
  constructor
  · intro gt gs ht hs
    have hstep := backward_step_at M tg sg i p gt gs hclip hp ht hs
    constructor
    · intro h0
      rw [hstep]
      unfold accumOne
      rw [h0]
    · intro g0 h0
      rw [hstep]
      unfold accumOne
      rw [h0]
  · intro h0 hcalls c0 cs hc
    subst hc
    obtain ⟨⟨gt, hgt, x, hgtx⟩, ⟨gs, hgs, y, hgsy⟩⟩ :=
      hcalls c0 (List.mem_cons_self c0 cs)
    have hstep := backward_step_at M c0.1 c0.2 i p gt gs hclip hp hgt hgs
    have haccum : accumOne M.n_outer p gt gs =
        { p with grad := some (vdiv (vadd gs gt) (M.n_outer : ℝ)) } := by
      unfold accumOne
      rw [h0]
    rw [haccum] at hstep
    have hg1j : (vdiv (vadd gs gt) (M.n_outer : ℝ))[j]? =
        some ((y + x) / (M.n_outer : ℝ)) :=
      vdiv_getElem _ _ j _ (vadd_getElem _ _ j _ _ hgsy hgtx)
    obtain ⟨g2, h1, h2⟩ := backwardN_inv i j cs (M.backward c0.1 c0.2)
      { p with grad := some (vdiv (vadd gs gt) (M.n_outer : ℝ)) }
      (vdiv (vadd gs gt) (M.n_outer : ℝ))
      ((y + x) / (M.n_outer : ℝ))
      (by rw [backward_clip_val]; exact hclip)
      hstep rfl hg1j
      (fun c2 hc2 => hcalls c2 (List.mem_cons_of_mem c0 hc2))
    refine ⟨g2, h1, ?_⟩
    rw [h2, backward_n_outer]
    rw [List.map_cons, List.sum_cons]
    rw [gAt_eq c0.2 i j gs y hgs hgsy, gAt_eq c0.1 i j gt x hgt hgtx]
    congr 1
    rw [add_div]
    ring

/-- Witness for C1: one shared parameter with empty buffer, n_outer = 2,
clipping off, two backward calls with task gradient [2] and shared gradient
[4] each: the buffer ends at ((4+2) + (4+2)) / 2 = 6. -/
theorem backward_accumulates_witness :
    ∃ g2, (updateableParameters
        ((Mw.backwardN [([[2]], [[4]]), ([[2]], [[4]])]).model_shared))[0]? =
          some ⟨[0], some g2, true⟩ ∧
      g2[0]? = some (6 : ℝ) := by
  have h := (backward_accumulates Mw [[2]] [[4]]
      [([[2]], [[4]]), ([[2]], [[4]])] 0 0 ⟨[0], none, true⟩
      (by norm_num [Mw]) rfl).2 rfl
      (by
        intro c hc
        fin_cases hc
        · exact ⟨⟨[2], rfl, 2, rfl⟩, ⟨[4], rfl, 4, rfl⟩⟩
        · exact ⟨⟨[2], rfl, 2, rfl⟩, ⟨[4], rfl, 4, rfl⟩⟩)
      ([[2]], [[4]]) [([[2]], [[4]])] rfl
  obtain ⟨g2, h1, h2⟩ := h
  refine ⟨g2, h1, ?_⟩
  rw [h2]
  norm_num [gAt, Mw]

end MetaEmo
